import Mathlib

set_option maxHeartbeats 1000000

/-! # Verification of the sweepline closest-pair program

Shallow embedding of `closest-pair.rs`.  Coordinates are modelled as exact
rationals: the program's contract requires every coordinate to be a finite
real, and on finite values `f32` comparison is the real comparison.  The
source keeps `closest_distance = sqrt closest_distance_sqr` and compares
differences `a` against it; over the reals, for `0 ≤ s`,
`a ≥ √s ↔ 0 ≤ a ∧ s ≤ a ^ 2` and `a < √s ↔ a < 0 ∨ a ^ 2 < s`, so every
comparison against `closest_distance` is embedded by its exact squared form
and the square root needs no separate state. -/

/-- A point of the plane: the source's `Point = Complex<f32>`, with `re` the
x-coordinate and `im` the y-coordinate. -/
@[ext]
structure Pt where
  re : ℚ
  im : ℚ
deriving DecidableEq

instance : Inhabited Pt := ⟨⟨0, 0⟩⟩

/-- `(a - b).norm_sqr()`: the squared Euclidean distance of two points. -/
def normSq (a b : Pt) : ℚ := (a.re - b.re) ^ 2 + (a.im - b.im) ^ 2

/-- Rust `partial_cmp` on two finite floats, modelled on `ℚ` (never `none`
for finite values; `none` would arise only from NaN, which is out of the
contract and outside the model). -/
def fcmp (a b : ℚ) : Option Ordering :=
  if a < b then some .lt else if a = b then some .eq else some .gt

/-- Lexicographic chaining of two component comparisons, as Rust's tuple
`partial_cmp`. -/
def tupCmp (c1 c2 : Option Ordering) : Option Ordering :=
  match c1 with
  | some .eq => c2
  | o => o

/-- The comparator of source line 44: `(a.re, a.im).partial_cmp(&(b.re, b.im))`. -/
def pcmpXY (a b : Pt) : Option Ordering := tupCmp (fcmp a.re b.re) (fcmp a.im b.im)

/-- `YSortedPoint::partial_cmp`: `(im, re)` lexicographic comparison
(source lines 25-29). -/
def pcmpYX (a b : Pt) : Option Ordering := tupCmp (fcmp a.im b.im) (fcmp a.re b.re)

/-- The sort order realized by `points.sort_by(...)`: `a` may stay before `b`
iff the comparator does not answer `Greater`. -/
def leXY (a b : Pt) : Prop := pcmpXY a b ≠ some .gt

instance : DecidableRel leXY := fun a b =>
  inferInstanceAs (Decidable (pcmpXY a b ≠ some Ordering.gt))

/-- The strict `(y, x)` order of the strip's `TreeSet<YSortedPoint>`. -/
def ltYX (a b : Pt) : Prop := pcmpYX a b = some .lt

instance : DecidableRel ltYX := fun a b =>
  inferInstanceAs (Decidable (pcmpYX a b = some Ordering.lt))

/-- `points[j]` on the sorted slice (in the program every access is in
bounds; out-of-range reads return a default point, never exercised under
the proved invariants). -/
def ptAt (pts : List Pt) (j : ℕ) : Pt := pts.getD j default

/-- `strip.insert(YSortedPoint { point: p })`: ordered insertion into the
`(y, x)`-sorted list, a no-op when the key is already present (a `TreeSet`
is a set). -/
def stripInsert (p : Pt) : List Pt → List Pt
  | [] => [p]
  | q :: rest =>
    match pcmpYX p q with
    | some .lt => p :: q :: rest
    | some .eq => q :: rest
    | _ => q :: stripInsert p rest

/-- `strip.remove(...)`: delete the element with equal `(y, x)` key, a no-op
when it is absent. -/
def stripRemove (p : Pt) : List Pt → List Pt
  | [] => []
  | q :: rest => if pcmpYX p q = some .eq then rest else q :: stripRemove p rest

/-- The candidate-scan loop of source lines 76-91.  `point2.im - point.im >=
closest_distance` is the stopping test, embedded squared; on an update the
best pair becomes `(point2, *point)` and the best squared distance the new
value. -/
def scanLoop (p : Pt) : List Pt → Pt × Pt → ℚ → (Pt × Pt) × ℚ
  | [], best, s => (best, s)
  | q :: rest, best, s =>
    if 0 ≤ q.im - p.im ∧ s ≤ (q.im - p.im) ^ 2 then (best, s)
    else if normSq p q < s then scanLoop p rest (q, p) (normSq p q)
    else scanLoop p rest best s

/-- The `upper_bound` probe of source lines 73-75: the cursor starts after
every strip element whose `(y, x)` key is at most
`(p.im - closest_distance, +∞)`, i.e. whose y-coordinate is at most
`p.im - √s`; this drop test is that key comparison, embedded squared. -/
def probeDrop (p : Pt) (s : ℚ) (q : Pt) : Bool :=
  decide (0 ≤ p.im - q.im ∧ s ≤ (p.im - q.im) ^ 2)

/-- The sweep state: the strip (as the sorted list of its elements), the
index `leftmost_idx`, the best pair and its squared distance. -/
structure SState where
  strip : List Pt
  leftmost : ℕ
  best : Pt × Pt
  bestSq : ℚ

/-- The eviction loop of source lines 62-69, recursing structurally on the
remaining index distance `idx - l` (the loop guard `leftmost_idx < idx` is
exactly the positivity of that distance). -/
def evictAux (pts : List Pt) (p : Pt) (s : ℚ) : ℕ → ℕ → List Pt → ℕ × List Pt
  | l, 0, strip => (l, strip)
  | l, k + 1, strip =>
    if ((ptAt pts l).re - p.re) ^ 2 < s then (l, strip)
    else evictAux pts p s (l + 1) k (stripRemove (ptAt pts l) strip)

/-- The eviction loop of source lines 62-69: run from `leftmost_idx = l` with
the loop bound `idx`, returning the new `leftmost_idx` and the new strip. -/
def evictLoop (pts : List Pt) (p : Pt) (s : ℚ) (l idx : ℕ) (strip : List Pt) :
    ℕ × List Pt :=
  evictAux pts p s l (idx - l) strip

/-- One iteration of the sweep (source lines 59-96), for the point at
sorted index `idx`: evict, scan the candidates, insert. -/
def sweepStep (pts : List Pt) (st : SState) (idx : ℕ) : SState :=
  let p := ptAt pts idx
  let ev := evictLoop pts p st.bestSq st.leftmost idx st.strip
  let cand := ev.2.dropWhile (probeDrop p st.bestSq)
  let sc := scanLoop p cand st.best st.bestSq
  { strip := stripInsert p ev.2
    leftmost := ev.1
    best := sc.1
    bestSq := sc.2 }

/-- `points.sort_by(|a, b| (a.re, a.im).partial_cmp(&(b.re, b.im)).unwrap())`:
the slice sorted ascending by the `(x, y)` comparator. -/
def sortPts (l : List Pt) : List Pt := List.insertionSort leXY l

/-- The state after initialization (source lines 46-56): best pair
`(points[0], points[1])`, strip holding these two points, `leftmost_idx = 0`. -/
def initState (pts : List Pt) : SState :=
  { strip := stripInsert (ptAt pts 1) (stripInsert (ptAt pts 0) [])
    leftmost := 0
    best := (ptAt pts 0, ptAt pts 1)
    bestSq := normSq (ptAt pts 0) (ptAt pts 1) }

/-- The sweep state just before the iteration for index `idx` (indices
`2, …, idx - 1` already processed). -/
def stateAt (pts : List Pt) (idx : ℕ) : SState :=
  (List.range' 2 (idx - 2)).foldl (sweepStep pts) (initState pts)

/-- The strip as the candidate scan for index `idx` begins: the strip of
`stateAt` after the eviction loop has run. -/
def scanStripAt (pts : List Pt) (idx : ℕ) : List Pt :=
  (evictLoop pts (ptAt pts idx) (stateAt pts idx).bestSq
    (stateAt pts idx).leftmost idx (stateAt pts idx).strip).2

/-- `closest_pair` together with the final contents of its mutable slice
argument (the slice is returned unchanged on the early exit, sorted
otherwise). -/
def closestPairFull (points : List Pt) : Option (Pt × Pt) × List Pt :=
  if points.length < 2 then (none, points)
  else
    let pts := sortPts points
    (some (stateAt pts pts.length).best, pts)

/-- The value returned by `closest_pair`. -/
def closest_pair (points : List Pt) : Option (Pt × Pt) :=
  (closestPairFull points).1

/-- The squared distances of all unordered pairs of points of a list
(specification side: the quantity `closest_pair` minimizes). -/
def pairSqs : List Pt → List ℚ
  | [] => []
  | p :: rest => rest.map (normSq p) ++ pairSqs rest

/-- The number of iterations the candidate-scan loop performs on a given
candidate list (instrumentation of `scanLoop`; the branch structure is the
same, the best pair is irrelevant to the count). -/
def scanSteps (p : Pt) : List Pt → ℚ → ℕ
  | [], _ => 0
  | q :: rest, s =>
    if 0 ≤ q.im - p.im ∧ s ≤ (q.im - p.im) ^ 2 then 0
    else if normSq p q < s then scanSteps p rest (normSq p q) + 1
    else scanSteps p rest s + 1

/-- The candidate list the scan at sweep index `idx` iterates over: the
post-eviction strip from the `upper_bound` cursor position on. -/
def scanCandAt (pts : List Pt) (idx : ℕ) : List Pt :=
  (scanStripAt pts idx).dropWhile (probeDrop (ptAt pts idx) (stateAt pts idx).bestSq)

/-- The number of iterations of the candidate-scan loop at sweep index `idx`. -/
def scanStepsAt (pts : List Pt) (idx : ℕ) : ℕ :=
  scanSteps (ptAt pts idx) (scanCandAt pts idx) (stateAt pts idx).bestSq

/-- The number of iterations of the eviction loop at sweep index `idx`: the
advance of `leftmost_idx` during that iteration. -/
def evictStepsAt (pts : List Pt) (idx : ℕ) : ℕ :=
  (evictLoop pts (ptAt pts idx) (stateAt pts idx).bestSq
    (stateAt pts idx).leftmost idx (stateAt pts idx).strip).1 -
    (stateAt pts idx).leftmost

/-! ## Basic facts about distances and the two orders -/

theorem normSq_comm (a b : Pt) : normSq a b = normSq b a := by
  unfold normSq; ring

theorem normSq_nonneg (a b : Pt) : 0 ≤ normSq a b := by
  unfold normSq; positivity

theorem normSq_self (a : Pt) : normSq a a = 0 := by
  unfold normSq; ring

/-- The y-offset of two points is at most their distance (squared form). -/
theorem ySq_le_normSq (a b : Pt) : (b.im - a.im) ^ 2 ≤ normSq a b := by
  have h : (b.im - a.im) ^ 2 = (a.im - b.im) ^ 2 := by ring
  rw [normSq, h]
  nlinarith [sq_nonneg (a.re - b.re)]

/-- The x-offset of two points is at most their distance (squared form). -/
theorem xSq_le_normSq (a b : Pt) : (b.re - a.re) ^ 2 ≤ normSq a b := by
  have h : (b.re - a.re) ^ 2 = (a.re - b.re) ^ 2 := by ring
  rw [normSq, h]
  nlinarith [sq_nonneg (a.im - b.im)]

theorem fcmp_eq_lt {a b : ℚ} : fcmp a b = some .lt ↔ a < b := by
  unfold fcmp; split_ifs with h1 h2 <;> simp_all

theorem fcmp_eq_eq {a b : ℚ} : fcmp a b = some .eq ↔ a = b := by
  unfold fcmp
  split_ifs with h1 h2
  · exact iff_of_false (by simp) (ne_of_lt h1)
  · exact iff_of_true rfl h2
  · exact iff_of_false (by simp) h2

theorem fcmp_eq_gt {a b : ℚ} : fcmp a b = some .gt ↔ b < a := by
  unfold fcmp
  split_ifs with h1 h2
  · exact iff_of_false (by simp) (not_lt.mpr (le_of_lt h1))
  · exact iff_of_false (by simp) (not_lt.mpr (le_of_eq h2))
  · exact iff_of_true rfl (lt_of_le_of_ne (not_lt.mp h1) (Ne.symm h2))

theorem fcmp_isSome (a b : ℚ) : (fcmp a b).isSome = true := by
  unfold fcmp; split_ifs <;> rfl

theorem tupCmp_fst_lt (c : Option Ordering) : tupCmp (some .lt) c = some .lt := rfl

theorem tupCmp_fst_eq (c : Option Ordering) : tupCmp (some .eq) c = c := rfl

theorem tupCmp_fst_gt (c : Option Ordering) : tupCmp (some .gt) c = some .gt := rfl

theorem fcmp_ne_none (a b : ℚ) : fcmp a b ≠ none := by
  unfold fcmp; split_ifs <;> simp

theorem pcmpYX_eq_eq {a b : Pt} : pcmpYX a b = some .eq ↔ a = b := by
  unfold pcmpYX
  rcases h1 : fcmp a.im b.im with _ | c
  · exact absurd h1 (fcmp_ne_none _ _)
  cases c
  · rw [fcmp_eq_lt] at h1
    rw [tupCmp_fst_lt]
    exact iff_of_false (by simp) fun h => absurd (congrArg Pt.im h) (ne_of_lt h1)
  · rw [fcmp_eq_eq] at h1
    rw [tupCmp_fst_eq, fcmp_eq_eq]
    exact ⟨fun h => Pt.ext h h1, fun h => congrArg Pt.re h⟩
  · rw [fcmp_eq_gt] at h1
    rw [tupCmp_fst_gt]
    exact iff_of_false (by simp)
      fun h => absurd (congrArg Pt.im h) (ne_of_gt h1)

theorem ltYX_iff {a b : Pt} : ltYX a b ↔ a.im < b.im ∨ (a.im = b.im ∧ a.re < b.re) := by
  unfold ltYX pcmpYX
  rcases h1 : fcmp a.im b.im with _ | c
  · exact absurd h1 (fcmp_ne_none _ _)
  cases c
  · rw [fcmp_eq_lt] at h1
    rw [tupCmp_fst_lt]
    exact iff_of_true rfl (Or.inl h1)
  · rw [fcmp_eq_eq] at h1
    rw [tupCmp_fst_eq, fcmp_eq_lt]
    constructor
    · intro h; exact Or.inr ⟨h1, h⟩
    · rintro (h | ⟨-, h⟩)
      · exact absurd h (h1 ▸ lt_irrefl _)
      · exact h
  · rw [fcmp_eq_gt] at h1
    rw [tupCmp_fst_gt]
    refine iff_of_false (by simp) ?_
    rintro (h | ⟨h, -⟩)
    · exact absurd h1 (not_lt.mpr (le_of_lt h))
    · exact absurd h1 (not_lt.mpr (le_of_eq h))

theorem leXY_iff {a b : Pt} : leXY a b ↔ a.re < b.re ∨ (a.re = b.re ∧ a.im ≤ b.im) := by
  unfold leXY pcmpXY
  rcases h1 : fcmp a.re b.re with _ | c
  · exact absurd h1 (fcmp_ne_none _ _)
  cases c
  · rw [fcmp_eq_lt] at h1
    rw [tupCmp_fst_lt]
    exact iff_of_true (by simp) (Or.inl h1)
  · rw [fcmp_eq_eq] at h1
    rw [tupCmp_fst_eq]
    constructor
    · intro h
      refine Or.inr ⟨h1, ?_⟩
      by_contra hlt
      exact h (fcmp_eq_gt.mpr (not_le.mp hlt))
    · rintro (h | ⟨-, h⟩)
      · exact absurd h (h1 ▸ lt_irrefl _)
      · intro hg
        exact absurd h (not_le.mpr (fcmp_eq_gt.mp hg))
  · rw [fcmp_eq_gt] at h1
    rw [tupCmp_fst_gt]
    refine iff_of_false (by simp) ?_
    rintro (h | ⟨h, -⟩)
    · exact absurd h1 (not_lt.mpr (le_of_lt h))
    · exact absurd h1 (not_lt.mpr (le_of_eq h))

theorem ltYX_irrefl (a : Pt) : ¬ ltYX a a := by
  rw [ltYX_iff]; simp

theorem ltYX_im_le {a b : Pt} (h : ltYX a b) : a.im ≤ b.im := by
  rw [ltYX_iff] at h
  rcases h with h | ⟨h, -⟩
  · exact le_of_lt h
  · exact le_of_eq h

theorem ltYX_trichotomy (a b : Pt) : ltYX a b ∨ a = b ∨ ltYX b a := by
  rw [ltYX_iff, ltYX_iff]
  rcases lt_trichotomy a.im b.im with h | h | h
  · exact Or.inl (Or.inl h)
  · rcases lt_trichotomy a.re b.re with h' | h' | h'
    · exact Or.inl (Or.inr ⟨h, h'⟩)
    · exact Or.inr (Or.inl (Pt.ext h' h))
    · exact Or.inr (Or.inr (Or.inr ⟨h.symm, h'⟩))
  · exact Or.inr (Or.inr (Or.inl h))

instance : IsTotal Pt leXY :=
  ⟨fun a b => by
    rw [leXY_iff, leXY_iff]
    rcases lt_trichotomy a.re b.re with h | h | h
    · exact Or.inl (Or.inl h)
    · rcases le_total a.im b.im with h' | h'
      · exact Or.inl (Or.inr ⟨h, h'⟩)
      · exact Or.inr (Or.inr ⟨h.symm, h'⟩)
    · exact Or.inr (Or.inl h)⟩

instance : IsTrans Pt leXY :=
  ⟨fun a b c hab hbc => by
    rw [leXY_iff] at *
    rcases hab with h | ⟨h, h'⟩ <;> rcases hbc with g | ⟨g, g'⟩
    · exact Or.inl (lt_trans h g)
    · exact Or.inl (g ▸ h)
    · exact Or.inl (h ▸ g)
    · exact Or.inr ⟨h.trans g, h'.trans g'⟩⟩

/-- On a `leXY`-sorted list, x-coordinates are monotone in the index. -/
theorem sorted_re_mono {pts : List Pt} (hs : List.Sorted leXY pts) {i j : ℕ}
    (hij : i ≤ j) (hj : j < pts.length) : (ptAt pts i).re ≤ (ptAt pts j).re := by
  rcases eq_or_lt_of_le hij with rfl | hlt
  · exact le_refl _
  · have hi : i < pts.length := lt_trans hlt hj
    have h := hs.rel_get_of_lt (a := ⟨i, hi⟩) (b := ⟨j, hj⟩) hlt
    rw [leXY_iff] at h
    unfold ptAt
    rw [List.getD_eq_getElem _ _ hi, List.getD_eq_getElem _ _ hj]
    rcases h with h | ⟨h, -⟩
    · exact le_of_lt h
    · exact le_of_eq h

theorem ltYX_trans {a b c : Pt} (h1 : ltYX a b) (h2 : ltYX b c) : ltYX a c := by
  rw [ltYX_iff] at *
  rcases h1 with h1 | ⟨h1, h1'⟩ <;> rcases h2 with h2 | ⟨h2, h2'⟩
  · exact Or.inl (lt_trans h1 h2)
  · exact Or.inl (h2 ▸ h1)
  · exact Or.inl (h1 ▸ h2)
  · exact Or.inr ⟨h1.trans h2, lt_trans h1' h2'⟩

theorem pcmpYX_ne_none (a b : Pt) : pcmpYX a b ≠ none := by
  unfold pcmpYX
  rcases h1 : fcmp a.im b.im with _ | c
  · exact absurd h1 (fcmp_ne_none _ _)
  cases c
  · rw [tupCmp_fst_lt]; simp
  · rw [tupCmp_fst_eq]; exact fcmp_ne_none _ _
  · rw [tupCmp_fst_gt]; simp

theorem pcmpYX_eq_gt_iff {a b : Pt} : pcmpYX a b = some .gt ↔ ltYX b a := by
  unfold pcmpYX
  rw [ltYX_iff]
  rcases h1 : fcmp a.im b.im with _ | c
  · exact absurd h1 (fcmp_ne_none _ _)
  cases c
  · rw [fcmp_eq_lt] at h1
    rw [tupCmp_fst_lt]
    refine iff_of_false (by simp) ?_
    rintro (h | ⟨h, -⟩)
    · exact absurd h1 (not_lt.mpr (le_of_lt h))
    · exact absurd h1 (not_lt.mpr (le_of_eq h))
  · rw [fcmp_eq_eq] at h1
    rw [tupCmp_fst_eq, fcmp_eq_gt]
    constructor
    · intro h; exact Or.inr ⟨h1.symm, h⟩
    · rintro (h | ⟨-, h⟩)
      · exact absurd h (h1 ▸ lt_irrefl _)
      · exact h
  · rw [fcmp_eq_gt] at h1
    rw [tupCmp_fst_gt]
    exact iff_of_true rfl (Or.inl h1)

/-! ## Strip operations: membership, order, sublists -/

theorem mem_stripInsert (x p : Pt) (l : List Pt) :
    x ∈ stripInsert p l ↔ x = p ∨ x ∈ l := by
  induction l with
  | nil => simp [stripInsert]
  | cons q rest ih =>
    unfold stripInsert
    rcases h1 : pcmpYX p q with _ | c
    · exact absurd h1 (pcmpYX_ne_none _ _)
    cases c
    · simp only [List.mem_cons]
    · have hpq : p = q := pcmpYX_eq_eq.mp h1
      subst hpq
      simp only [List.mem_cons]
      tauto
    · rw [List.mem_cons, ih, List.mem_cons]
      tauto

theorem pairwise_stripInsert (p : Pt) (l : List Pt) (h : l.Pairwise ltYX) :
    (stripInsert p l).Pairwise ltYX := by
  induction l with
  | nil => simp [stripInsert]
  | cons q rest ih =>
    rcases List.pairwise_cons.mp h with ⟨hq, hrest⟩
    unfold stripInsert
    rcases h1 : pcmpYX p q with _ | c
    · exact absurd h1 (pcmpYX_ne_none _ _)
    cases c
    · refine List.pairwise_cons.mpr ⟨?_, h⟩
      intro x hx
      rcases List.mem_cons.mp hx with rfl | hx
      · exact h1
      · exact ltYX_trans h1 (hq x hx)
    · exact h
    · refine List.pairwise_cons.mpr ⟨?_, ih hrest⟩
      intro x hx
      rcases (mem_stripInsert x p rest).mp hx with rfl | hx
      · exact pcmpYX_eq_gt_iff.mp h1
      · exact hq x hx

theorem nodup_of_pairwise_ltYX {l : List Pt} (h : l.Pairwise ltYX) : l.Nodup := by
  induction h with
  | nil => exact List.nodup_nil
  | cons hq hrest ih =>
    refine List.nodup_cons.mpr ⟨?_, ih⟩
    intro hmem
    exact ltYX_irrefl _ (hq _ hmem)

theorem stripRemove_sublist (v : Pt) (l : List Pt) : (stripRemove v l).Sublist l := by
  induction l with
  | nil => simp [stripRemove]
  | cons q rest ih =>
    unfold stripRemove
    by_cases h1 : pcmpYX v q = some .eq
    · rw [if_pos h1]
      exact List.sublist_cons_self q rest
    · rw [if_neg h1]
      exact ih.cons₂ q

theorem pairwise_stripRemove (v : Pt) (l : List Pt) (h : l.Pairwise ltYX) :
    (stripRemove v l).Pairwise ltYX :=
  List.Pairwise.sublist (stripRemove_sublist v l) h

theorem mem_stripRemove (x v : Pt) (l : List Pt) (hnd : l.Nodup) :
    x ∈ stripRemove v l ↔ x ∈ l ∧ x ≠ v := by
  induction l with
  | nil => simp [stripRemove]
  | cons q rest ih =>
    rcases List.nodup_cons.mp hnd with ⟨hq, hrest⟩
    unfold stripRemove
    by_cases h1 : pcmpYX v q = some .eq
    · rw [if_pos h1]
      have hvq : v = q := pcmpYX_eq_eq.mp h1
      subst hvq
      constructor
      · intro hx
        exact ⟨List.mem_cons_of_mem _ hx, fun he => hq (he ▸ hx)⟩
      · rintro ⟨hx, hne⟩
        rcases List.mem_cons.mp hx with rfl | hx
        · exact absurd rfl hne
        · exact hx
    · rw [if_neg h1]
      have hvq : x = q → x ≠ v := by
        rintro rfl he
        exact h1 (pcmpYX_eq_eq.mpr he.symm)
      rw [List.mem_cons, ih hrest, List.mem_cons]
      constructor
      · rintro (rfl | ⟨hx, hne⟩)
        · exact ⟨Or.inl rfl, hvq rfl⟩
        · exact ⟨Or.inr hx, hne⟩
      · rintro ⟨rfl | hx, hne⟩
        · exact Or.inl rfl
        · exact Or.inr ⟨hx, hne⟩

/-- An element failing the drop test is kept by `dropWhile` (the dropped
elements all pass the test). -/
theorem mem_dropWhile_of_not {x : Pt} {l : List Pt} (pred : Pt → Bool)
    (hx : x ∈ l) (hpx : pred x = false) : x ∈ l.dropWhile pred := by
  induction l with
  | nil => cases hx
  | cons q rest ih =>
    rw [List.dropWhile_cons]
    by_cases hq : pred q = true
    · rw [if_pos hq]
      rcases List.mem_cons.mp hx with rfl | hx
      · rw [hq] at hpx; cases hpx
      · exact ih hx
    · rw [if_neg hq]
      exact hx

/-! ## The candidate scan -/

theorem scanLoop_nil (p : Pt) (best : Pt × Pt) (s : ℚ) :
    scanLoop p [] best s = (best, s) := rfl

theorem scanLoop_cons (p q : Pt) (rest : List Pt) (best : Pt × Pt) (s : ℚ) :
    scanLoop p (q :: rest) best s =
      if 0 ≤ q.im - p.im ∧ s ≤ (q.im - p.im) ^ 2 then (best, s)
      else if normSq p q < s then scanLoop p rest (q, p) (normSq p q)
      else scanLoop p rest best s := rfl

/-- The best squared distance never grows during the scan. -/
theorem scanLoop_snd_le (p : Pt) (l : List Pt) :
    ∀ best s, (scanLoop p l best s).2 ≤ s := by
  induction l with
  | nil => intro best s; exact le_refl s
  | cons q rest ih =>
    intro best s
    rw [scanLoop_cons]
    split_ifs with h1 h2
    · exact le_refl s
    · exact le_trans (ih (q, p) (normSq p q)) (le_of_lt h2)
    · exact ih best s

/-- A common lower bound of the start value and of all candidate distances
is a lower bound of the scan's result. -/
theorem scanLoop_lower {m : ℚ} (p : Pt) (l : List Pt)
    (hml : ∀ q ∈ l, m ≤ normSq p q) :
    ∀ best s, m ≤ s → m ≤ (scanLoop p l best s).2 := by
  induction l with
  | nil => intro best s hms; exact hms
  | cons q rest ih =>
    intro best s hms
    have hq := hml q (List.mem_cons_self q rest)
    have hrest : ∀ x ∈ rest, m ≤ normSq p x := fun x hx =>
      hml x (List.mem_cons_of_mem q hx)
    rw [scanLoop_cons]
    split_ifs with h1 h2
    · exact hms
    · exact ih hrest (q, p) (normSq p q) hq
    · exact ih hrest best s hms

/-- The scan keeps the best pair and the best squared distance consistent. -/
theorem scanLoop_track (p : Pt) (l : List Pt) :
    ∀ best s, normSq best.1 best.2 = s →
      normSq (scanLoop p l best s).1.1 (scanLoop p l best s).1.2 =
        (scanLoop p l best s).2 := by
  induction l with
  | nil => intro best s h; exact h
  | cons q rest ih =>
    intro best s h
    rw [scanLoop_cons]
    split_ifs with h1 h2
    · exact h
    · exact ih (q, p) (normSq p q) (normSq_comm q p)
    · exact ih best s h

/-- The scan's result is the initial pair or `(q, p)` for a scanned `q`. -/
theorem scanLoop_pair_cases (p : Pt) (l : List Pt) :
    ∀ best s,
      ((scanLoop p l best s).1 = best ∧ (scanLoop p l best s).2 = s) ∨
        ∃ q ∈ l, (scanLoop p l best s).1 = (q, p) ∧
          (scanLoop p l best s).2 = normSq p q := by
  induction l with
  | nil => intro best s; exact Or.inl ⟨rfl, rfl⟩
  | cons q rest ih =>
    intro best s
    rw [scanLoop_cons]
    split_ifs with h1 h2
    · exact Or.inl ⟨rfl, rfl⟩
    · rcases ih (q, p) (normSq p q) with ⟨ha, hb⟩ | ⟨q', hq', ha, hb⟩
      · exact Or.inr ⟨q, List.mem_cons_self q rest, ha, hb⟩
      · exact Or.inr ⟨q', List.mem_cons_of_mem q hq', ha, hb⟩
    · rcases ih best s with ⟨ha, hb⟩ | ⟨q', hq', ha, hb⟩
      · exact Or.inl ⟨ha, hb⟩
      · exact Or.inr ⟨q', List.mem_cons_of_mem q hq', ha, hb⟩

/-- If a candidate `q0` of the (y, x)-sorted candidate list realizes a
squared distance below the running best and no candidate is closer, the
scan returns exactly that squared distance: the stopping rule cannot fire
before `q0` is examined. -/
theorem scanLoop_reaches (p : Pt) (l : List Pt) :
    ∀ best s q0, l.Pairwise ltYX → q0 ∈ l → normSq p q0 < s →
      (∀ q ∈ l, normSq p q0 ≤ normSq p q) →
      (scanLoop p l best s).2 = normSq p q0 := by
  induction l with
  | nil =>
    intro best s q0 _ h
    cases h
  | cons q rest ih =>
    intro best s q0 hpw hq0 hlt hmin
    rcases List.pairwise_cons.mp hpw with ⟨hhead, hrest⟩
    have hminq : normSq p q0 ≤ normSq p q := hmin q (List.mem_cons_self q rest)
    have hminrest : ∀ x ∈ rest, normSq p q0 ≤ normSq p x := fun x hx =>
      hmin x (List.mem_cons_of_mem q hx)
    have hy0 : (q0.im - p.im) ^ 2 ≤ normSq p q0 := ySq_le_normSq p q0
    rw [scanLoop_cons]
    split_ifs with h1 h2
    · exfalso
      rcases h1 with ⟨hpos, hsq⟩
      rcases List.mem_cons.mp hq0 with rfl | hq0r
      · linarith
      · have hle : q.im ≤ q0.im := ltYX_im_le (hhead q0 hq0r)
        have hmono : (q.im - p.im) ^ 2 ≤ (q0.im - p.im) ^ 2 :=
          pow_le_pow_left₀ hpos (by linarith) 2
        linarith
    · rcases eq_or_lt_of_le hminq with heq | hlt2
      · have hub := scanLoop_snd_le p rest (q, p) (normSq p q)
        have hlb := scanLoop_lower p rest hminrest (q, p) (normSq p q) (le_of_eq heq)
        exact le_antisymm (hub.trans (le_of_eq heq.symm)) hlb
      · rcases List.mem_cons.mp hq0 with rfl | hq0r
        · exact absurd hlt2 (lt_irrefl _)
        · exact ih (q, p) (normSq p q) q0 hrest hq0r hlt2 hminrest
    · rcases List.mem_cons.mp hq0 with rfl | hq0r
      · exact absurd hlt (not_lt.mpr (not_lt.mp h2))
      · exact ih best s q0 hrest hq0r hlt hminrest

theorem scanSteps_cons (p q : Pt) (rest : List Pt) (s : ℚ) :
    scanSteps p (q :: rest) s =
      if 0 ≤ q.im - p.im ∧ s ≤ (q.im - p.im) ^ 2 then 0
      else if normSq p q < s then scanSteps p rest (normSq p q) + 1
      else scanSteps p rest s + 1 := rfl

/-- The scan performs at most one iteration per candidate. -/
theorem scanSteps_le (p : Pt) (l : List Pt) : ∀ s, scanSteps p l s ≤ l.length := by
  induction l with
  | nil => intro s; exact Nat.le_refl 0
  | cons q rest ih =>
    intro s
    rw [scanSteps_cons]
    split_ifs with h1 h2
    · exact Nat.zero_le _
    · exact Nat.succ_le_succ (ih (normSq p q))
    · exact Nat.succ_le_succ (ih s)

/-! ## The eviction loop -/

theorem evictAux_zero (pts : List Pt) (p : Pt) (s : ℚ) (l : ℕ) (strip : List Pt) :
    evictAux pts p s l 0 strip = (l, strip) := rfl

theorem evictAux_succ (pts : List Pt) (p : Pt) (s : ℚ) (l k : ℕ) (strip : List Pt) :
    evictAux pts p s l (k + 1) strip =
      if ((ptAt pts l).re - p.re) ^ 2 < s then (l, strip)
      else evictAux pts p s (l + 1) k (stripRemove (ptAt pts l) strip) := rfl

theorem evictAux_fst_ge (pts : List Pt) (p : Pt) (s : ℚ) :
    ∀ (k l : ℕ) (strip : List Pt), l ≤ (evictAux pts p s l k strip).1 := by
  intro k
  induction k with
  | zero => intro l strip; exact le_refl l
  | succ k ih =>
    intro l strip
    rw [evictAux_succ]
    split_ifs with h1
    · exact le_refl l
    · exact le_trans (Nat.le_succ l) (ih (l + 1) _)

theorem evictAux_fst_le (pts : List Pt) (p : Pt) (s : ℚ) :
    ∀ (k l : ℕ) (strip : List Pt), (evictAux pts p s l k strip).1 ≤ l + k := by
  intro k
  induction k with
  | zero => intro l strip; exact Nat.le_refl l
  | succ k ih =>
    intro l strip
    rw [evictAux_succ]
    split_ifs with h1
    · exact Nat.le_add_right l (k + 1)
    · exact le_trans (ih (l + 1) _) (by omega)

/-- Every index passed over by the eviction loop failed the continuation
test: its point is at x-distance at least `√s` from the sweep point. -/
theorem evictAux_bad (pts : List Pt) (p : Pt) (s : ℚ) :
    ∀ (k l : ℕ) (strip : List Pt) (j : ℕ), l ≤ j →
      j < (evictAux pts p s l k strip).1 →
      s ≤ ((ptAt pts j).re - p.re) ^ 2 := by
  intro k
  induction k with
  | zero =>
    intro l strip j hlj hj
    rw [evictAux_zero] at hj
    omega
  | succ k ih =>
    intro l strip j hlj hj
    rw [evictAux_succ] at hj
    split_ifs at hj with h1
    · omega
    · rcases eq_or_lt_of_le hlj with rfl | hlt
      · exact not_lt.mp h1
      · exact ih (l + 1) _ j hlt hj

/-- When the eviction loop stops short of `idx`, the point at the final
`leftmost_idx` passed the continuation test. -/
theorem evictAux_good (pts : List Pt) (p : Pt) (s : ℚ) :
    ∀ (k l : ℕ) (strip : List Pt),
      (evictAux pts p s l k strip).1 < l + k →
      ((ptAt pts (evictAux pts p s l k strip).1).re - p.re) ^ 2 < s := by
  intro k
  induction k with
  | zero =>
    intro l strip h
    rw [evictAux_zero] at h ⊢
    omega
  | succ k ih =>
    intro l strip h
    rw [evictAux_succ] at h ⊢
    split_ifs at h ⊢ with h1
    · exact h1
    · exact ih (l + 1) _ (by omega)

theorem evictAux_pairwise (pts : List Pt) (p : Pt) (s : ℚ) :
    ∀ (k l : ℕ) (strip : List Pt), strip.Pairwise ltYX →
      (evictAux pts p s l k strip).2.Pairwise ltYX := by
  intro k
  induction k with
  | zero => intro l strip h; exact h
  | succ k ih =>
    intro l strip h
    rw [evictAux_succ]
    split_ifs with h1
    · exact h
    · exact ih (l + 1) _ (pairwise_stripRemove _ _ h)

/-- Membership after eviction: exactly the initial strip elements that are
not one of the points at the passed-over indices. -/
theorem evictAux_mem (pts : List Pt) (p : Pt) (s : ℚ) :
    ∀ (k l : ℕ) (strip : List Pt), strip.Pairwise ltYX →
      ∀ x, x ∈ (evictAux pts p s l k strip).2 ↔
        (x ∈ strip ∧ ∀ j, l ≤ j → j < (evictAux pts p s l k strip).1 →
          x ≠ ptAt pts j) := by
  intro k
  induction k with
  | zero =>
    intro l strip _ x
    rw [evictAux_zero]
    constructor
    · intro hx
      exact ⟨hx, fun j hlj hj => absurd (lt_of_le_of_lt hlj hj) (lt_irrefl l)⟩
    · intro hx; exact hx.1
  | succ k ih =>
    intro l strip hpw x
    rw [evictAux_succ]
    split_ifs with h1
    · constructor
      · intro hx
        exact ⟨hx, fun j hlj hj => absurd (lt_of_le_of_lt hlj hj) (lt_irrefl l)⟩
      · intro hx; exact hx.1
    · have hpw' := pairwise_stripRemove (ptAt pts l) strip hpw
      have hge := evictAux_fst_ge pts p s k (l + 1) (stripRemove (ptAt pts l) strip)
      rw [ih (l + 1) _ hpw' x,
        mem_stripRemove x (ptAt pts l) strip (nodup_of_pairwise_ltYX hpw)]
      constructor
      · rintro ⟨⟨hx, hne⟩, hall⟩
        refine ⟨hx, fun j hlj hj => ?_⟩
        rcases eq_or_lt_of_le hlj with rfl | hlt
        · exact hne
        · exact hall j hlt hj
      · rintro ⟨hx, hall⟩
        have hll : l < (evictAux pts p s (l + 1) k (stripRemove (ptAt pts l) strip)).1 :=
          lt_of_lt_of_le (Nat.lt_succ_self l) hge
        exact ⟨⟨hx, hall l (le_refl l) hll⟩, fun j hlj hj => hall j (le_trans (Nat.le_succ l) hlj) hj⟩

/-! ## The sweep invariant -/

/-- The sweep invariant, holding just before the iteration for sorted index
`idx`: the strip is strictly (y, x)-sorted; its elements are exactly the
points at indices `leftmost_idx … idx - 1`; every evicted index is at
x-distance at least the current best distance from every point still to be
swept (squared form); the best pair realizes `bestSq`; and `bestSq` is the
minimum squared distance over all pairs among the first `idx` sorted
points, attained by some pair. -/
def SweepInv (pts : List Pt) (idx : ℕ) (st : SState) : Prop :=
  st.strip.Pairwise ltYX ∧
  (∀ x, x ∈ st.strip ↔ ∃ j, st.leftmost ≤ j ∧ j < idx ∧ ptAt pts j = x) ∧
  st.leftmost ≤ idx ∧
  (∀ j k, j < st.leftmost → idx ≤ k → k < pts.length →
    st.bestSq ≤ ((ptAt pts k).re - (ptAt pts j).re) ^ 2) ∧
  normSq st.best.1 st.best.2 = st.bestSq ∧
  (∀ i j, i < j → j < idx → st.bestSq ≤ normSq (ptAt pts i) (ptAt pts j)) ∧
  (∃ i j, i < j ∧ j < idx ∧ st.bestSq = normSq (ptAt pts i) (ptAt pts j))

theorem initState_inv (pts : List Pt) : SweepInv pts 2 (initState pts) := by
  unfold SweepInv initState
  dsimp only
  refine ⟨?_, ?_, ?_, ?_, ?_, ?_, ?_⟩
  · exact pairwise_stripInsert _ _ (pairwise_stripInsert _ _ List.Pairwise.nil)
  · intro x
    rw [mem_stripInsert, mem_stripInsert]
    constructor
    · rintro (rfl | rfl | h)
      · exact ⟨1, by omega, by omega, rfl⟩
      · exact ⟨0, by omega, by omega, rfl⟩
      · cases h
    · rintro ⟨j, -, hj, rfl⟩
      interval_cases j
      · exact Or.inr (Or.inl rfl)
      · exact Or.inl rfl
  · omega
  · intro j k hj
    omega
  · rfl
  · intro i j hij hj
    have hi0 : i = 0 := by omega
    have hj1 : j = 1 := by omega
    subst hi0; subst hj1
    exact le_refl _
  · exact ⟨0, 1, by omega, by omega, rfl⟩

theorem stateAt_two (pts : List Pt) : stateAt pts 2 = initState pts := rfl

theorem stateAt_succ (pts : List Pt) (idx : ℕ) (h2 : 2 ≤ idx) :
    stateAt pts (idx + 1) = sweepStep pts (stateAt pts idx) idx := by
  unfold stateAt
  have h : idx + 1 - 2 = (idx - 2) + 1 := by omega
  rw [h, List.range'_concat, List.foldl_append]
  have h' : 2 + 1 * (idx - 2) = idx := by omega
  rw [h']
  rfl

/-- One sweep iteration preserves the invariant. -/
theorem sweepStep_inv (pts : List Pt) (hs : List.Sorted leXY pts) (idx : ℕ)
    (h2 : 2 ≤ idx) (hidx : idx < pts.length) (st : SState)
    (hinv : SweepInv pts idx st) : SweepInv pts (idx + 1) (sweepStep pts st idx) := by
  obtain ⟨ha, hb, hc, hd, he, hf, hg⟩ := hinv
  set p := ptAt pts idx with hp
  set s := st.bestSq with hsdef
  set ev := evictLoop pts p s st.leftmost idx st.strip with hev
  set cand := ev.2.dropWhile (probeDrop p s) with hcand
  set sc := scanLoop p cand st.best s with hsc
  have hstep : sweepStep pts st idx =
      { strip := stripInsert p ev.2, leftmost := ev.1, best := sc.1, bestSq := sc.2 } := rfl
  -- eviction facts
  have hge : st.leftmost ≤ ev.1 := evictAux_fst_ge pts p s _ _ _
  have hle : ev.1 ≤ idx := by
    have h1 := evictAux_fst_le pts p s (idx - st.leftmost) st.leftmost st.strip
    rw [hev]
    unfold evictLoop
    omega
  have hbad : ∀ j, st.leftmost ≤ j → j < ev.1 → s ≤ ((ptAt pts j).re - p.re) ^ 2 :=
    fun j hlj hj => evictAux_bad pts p s _ _ _ j hlj hj
  have hgood : ev.1 < idx → ((ptAt pts ev.1).re - p.re) ^ 2 < s := by
    intro h
    have h1 := evictAux_good pts p s (idx - st.leftmost) st.leftmost st.strip
    rw [hev] at h ⊢
    unfold evictLoop at h ⊢
    exact h1 (by omega)
  have hpw' : ev.2.Pairwise ltYX := evictAux_pairwise pts p s _ _ _ ha
  have hmem' : ∀ x, x ∈ ev.2 ↔
      (x ∈ st.strip ∧ ∀ j, st.leftmost ≤ j → j < ev.1 → x ≠ ptAt pts j) :=
    evictAux_mem pts p s _ _ _ ha
  have hbadAll : ∀ j, j < ev.1 → s ≤ ((ptAt pts j).re - p.re) ^ 2 := by
    intro j hj
    by_cases hjl : j < st.leftmost
    · have h1 := hd j idx hjl (le_refl idx) hidx
      calc s ≤ ((ptAt pts idx).re - (ptAt pts j).re) ^ 2 := h1
        _ = ((ptAt pts j).re - p.re) ^ 2 := by rw [← hp]; ring
    · exact hbad j (not_lt.mp hjl) hj
  have hgoodAll : ∀ j, ev.1 ≤ j → j < idx → ((ptAt pts j).re - p.re) ^ 2 < s := by
    intro j hj1 hj2
    have h1 : ev.1 < idx := lt_of_le_of_lt hj1 hj2
    have hgd := hgood h1
    have hm1 : (ptAt pts ev.1).re ≤ (ptAt pts j).re :=
      sorted_re_mono hs hj1 (lt_trans hj2 hidx)
    have hm2 : (ptAt pts j).re ≤ p.re := by
      rw [hp]; exact sorted_re_mono hs (le_of_lt hj2) hidx
    have hsq : ((ptAt pts j).re - p.re) ^ 2 ≤ ((ptAt pts ev.1).re - p.re) ^ 2 := by
      have e1 : ((ptAt pts j).re - p.re) ^ 2 = (p.re - (ptAt pts j).re) ^ 2 := by ring
      have e2 : ((ptAt pts ev.1).re - p.re) ^ 2 = (p.re - (ptAt pts ev.1).re) ^ 2 := by
        ring
      rw [e1, e2]
      exact pow_le_pow_left₀ (by linarith) (by linarith) 2
    linarith
  -- the strip after eviction holds exactly the points at indices [ev.1, idx)
  have hchar : ∀ x, x ∈ ev.2 ↔ ∃ j, ev.1 ≤ j ∧ j < idx ∧ ptAt pts j = x := by
    intro x
    rw [hmem' x]
    constructor
    · rintro ⟨hx, hne⟩
      rcases (hb x).mp hx with ⟨j, hj1, hj2, hj3⟩
      by_cases hjl : j < ev.1
      · exact absurd hj3.symm (hne j hj1 hjl)
      · exact ⟨j, not_lt.mp hjl, hj2, hj3⟩
    · rintro ⟨j, hj1, hj2, rfl⟩
      refine ⟨(hb _).mpr ⟨j, le_trans hge hj1, hj2, rfl⟩, ?_⟩
      intro j' hj1' hj2' heq
      have hb1 := hbadAll j' hj2'
      have hg1 := hgoodAll j hj1 hj2
      rw [heq] at hg1
      linarith
  -- minimum distance from p to the already-swept points
  obtain ⟨j0, hj0lt, hj0min⟩ : ∃ j0, j0 < idx ∧ ∀ j, j < idx →
      normSq p (ptAt pts j0) ≤ normSq p (ptAt pts j) := by
    obtain ⟨j0, hj0, hmin⟩ := Finset.exists_min_image (Finset.range idx)
      (fun j => normSq p (ptAt pts j)) ⟨0, Finset.mem_range.mpr (by omega)⟩
    exact ⟨j0, Finset.mem_range.mp hj0, fun j hj => hmin j (Finset.mem_range.mpr hj)⟩
  set mq := normSq p (ptAt pts j0) with hmq
  have hcand_pts : ∀ q ∈ cand, ∃ j, j < idx ∧ ptAt pts j = q := by
    intro q hq
    have hq2 : q ∈ ev.2 := (List.dropWhile_sublist _).subset hq
    rcases (hchar q).mp hq2 with ⟨j, hj1, hj2, hj3⟩
    exact ⟨j, hj2, hj3⟩
  have hcand_low : ∀ q ∈ cand, mq ≤ normSq p q := by
    intro q hq
    rcases hcand_pts q hq with ⟨j, hj, rfl⟩
    exact hj0min j hj
  have hsc_le : sc.2 ≤ s := scanLoop_snd_le p cand st.best s
  have hscr : (sc.2 = s ∧ s ≤ mq) ∨ (sc.2 = mq ∧ mq < s) := by
    rcases le_or_lt s mq with hcase | hcase
    · left
      refine ⟨le_antisymm hsc_le ?_, hcase⟩
      exact scanLoop_lower p cand
        (fun q hq => le_trans hcase (hcand_low q hq)) st.best s (le_refl s)
    · right
      refine ⟨?_, hcase⟩
      have hq0strip : ptAt pts j0 ∈ ev.2 := by
        apply (hchar _).mpr
        refine ⟨j0, ?_, hj0lt, rfl⟩
        by_contra hjl
        push_neg at hjl
        have hb1 := hbadAll j0 hjl
        have hx : ((ptAt pts j0).re - p.re) ^ 2 ≤ mq := by
          rw [hmq]
          exact xSq_le_normSq p (ptAt pts j0)
        linarith
      have hq0cand : ptAt pts j0 ∈ cand := by
        apply mem_dropWhile_of_not _ hq0strip
        unfold probeDrop
        rw [decide_eq_false_iff_not]
        rintro ⟨hpos, hsq⟩
        have hy : (p.im - (ptAt pts j0).im) ^ 2 ≤ mq := by
          calc (p.im - (ptAt pts j0).im) ^ 2
              = ((ptAt pts j0).im - p.im) ^ 2 := by ring
            _ ≤ normSq p (ptAt pts j0) := ySq_le_normSq p (ptAt pts j0)
        linarith
      exact scanLoop_reaches p cand st.best s (ptAt pts j0)
        (List.Pairwise.sublist (List.dropWhile_sublist _) hpw') hq0cand hcase hcand_low
  have hmq_le : ∀ i, i < idx → mq ≤ normSq (ptAt pts i) p := by
    intro i hi
    rw [normSq_comm]
    exact hj0min i hi
  -- assemble the new invariant
  rw [hstep]
  refine ⟨?_, ?_, ?_, ?_, ?_, ?_, ?_⟩
  · exact pairwise_stripInsert p ev.2 hpw'
  · intro x
    show x ∈ stripInsert p ev.2 ↔ _
    rw [mem_stripInsert, hchar x]
    constructor
    · rintro (rfl | ⟨j, hj1, hj2, hj3⟩)
      · exact ⟨idx, hle, by omega, hp.symm⟩
      · exact ⟨j, hj1, by omega, hj3⟩
    · rintro ⟨j, hj1, hj2, rfl⟩
      by_cases hji : j = idx
      · subst hji
        exact Or.inl hp
      · exact Or.inr ⟨j, hj1, by omega, rfl⟩
  · show ev.1 ≤ idx + 1
    omega
  · show ∀ j k, j < ev.1 → idx + 1 ≤ k → k < pts.length →
      sc.2 ≤ ((ptAt pts k).re - (ptAt pts j).re) ^ 2
    intro j k hj hk1 hk2
    have hb1 : s ≤ ((ptAt pts j).re - p.re) ^ 2 := hbadAll j hj
    have hxj : (ptAt pts j).re ≤ p.re := by
      rw [hp]
      exact sorted_re_mono hs (by omega) hidx
    have hxk : p.re ≤ (ptAt pts k).re := by
      rw [hp]
      exact sorted_re_mono hs (by omega) hk2
    have hsq : (p.re - (ptAt pts j).re) ^ 2 ≤ ((ptAt pts k).re - (ptAt pts j).re) ^ 2 :=
      pow_le_pow_left₀ (by linarith) (by linarith) 2
    have he1 : ((ptAt pts j).re - p.re) ^ 2 = (p.re - (ptAt pts j).re) ^ 2 := by ring
    linarith
  · show normSq sc.1.1 sc.1.2 = sc.2
    exact scanLoop_track p cand st.best s he
  · show ∀ i j, i < j → j < idx + 1 → sc.2 ≤ normSq (ptAt pts i) (ptAt pts j)
    intro i j hij hj
    by_cases hji : j = idx
    · subst hji
      rcases hscr with ⟨h1, h2⟩ | ⟨h1, h2⟩
      · rw [h1, ← hp]
        exact le_trans h2 (hmq_le i hij)
      · rw [h1, ← hp]
        exact hmq_le i hij
    · have hj' : j < idx := by omega
      exact le_trans hsc_le (hf i j hij hj')
  · show ∃ i j, i < j ∧ j < idx + 1 ∧ sc.2 = normSq (ptAt pts i) (ptAt pts j)
    rcases hscr with ⟨h1, -⟩ | ⟨h1, -⟩
    · rcases hg with ⟨i, j, hij, hj, hval⟩
      exact ⟨i, j, hij, by omega, by rw [h1]; exact hval⟩
    · refine ⟨j0, idx, hj0lt, by omega, ?_⟩
      rw [h1, hmq, ← hp, normSq_comm]

/-- The invariant holds at every sweep state. -/
theorem stateAt_inv (pts : List Pt) (hs : List.Sorted leXY pts) :
    ∀ idx, 2 ≤ idx → idx ≤ pts.length → SweepInv pts idx (stateAt pts idx) := by
  intro idx
  induction idx with
  | zero => intro h; omega
  | succ n ih =>
    intro h2 hle
    rcases Nat.lt_or_ge n 2 with hn | hn
    · have hn1 : n = 1 := by omega
      subst hn1
      rw [stateAt_two]
      exact initState_inv pts
    · rw [stateAt_succ pts n hn]
      exact sweepStep_inv pts hs n hn (by omega) _ (ih hn (by omega))

/-! ## The list of all pairwise squared distances -/

theorem ptAt_cons_zero (p : Pt) (rest : List Pt) : ptAt (p :: rest) 0 = p := rfl

theorem ptAt_cons_succ (p : Pt) (rest : List Pt) (n : ℕ) :
    ptAt (p :: rest) (n + 1) = ptAt rest n := rfl

theorem pairSqs_nonneg (l : List Pt) : ∀ x ∈ pairSqs l, 0 ≤ x := by
  induction l with
  | nil => intro x hx; cases hx
  | cons p rest ih =>
    intro x hx
    rcases List.mem_append.mp hx with hx | hx
    · rcases List.mem_map.mp hx with ⟨q, hq, rfl⟩
      exact normSq_nonneg p q
    · exact ih x hx

theorem mem_pairSqs_of_indices (l : List Pt) :
    ∀ i j, i < j → j < l.length → normSq (ptAt l i) (ptAt l j) ∈ pairSqs l := by
  induction l with
  | nil =>
    intro i j hij hj
    simp at hj
  | cons p rest ih =>
    intro i j hij hj
    rcases j with _ | m
    · omega
    rcases i with _ | i'
    · apply List.mem_append.mpr
      left
      apply List.mem_map.mpr
      refine ⟨ptAt rest m, ?_, ?_⟩
      · have hm : m < rest.length := by
          simp only [List.length_cons] at hj
          omega
        unfold ptAt
        rw [List.getD_eq_getElem _ _ hm]
        exact List.getElem_mem hm
      · rw [ptAt_cons_zero, ptAt_cons_succ]
    · apply List.mem_append.mpr
      right
      rw [ptAt_cons_succ, ptAt_cons_succ]
      refine ih i' m (by omega) ?_
      simp only [List.length_cons] at hj
      omega

theorem pairSqs_indices (l : List Pt) :
    ∀ x ∈ pairSqs l, ∃ i j, i < j ∧ j < l.length ∧ x = normSq (ptAt l i) (ptAt l j) := by
  induction l with
  | nil => intro x hx; cases hx
  | cons p rest ih =>
    intro x hx
    rcases List.mem_append.mp hx with hx | hx
    · rcases List.mem_map.mp hx with ⟨q, hq, rfl⟩
      obtain ⟨⟨n, hn⟩, rfl⟩ := List.mem_iff_get.mp hq
      refine ⟨0, n + 1, by omega, ?_, ?_⟩
      · simp only [List.length_cons]
        omega
      · rw [ptAt_cons_zero, ptAt_cons_succ]
        unfold ptAt
        rw [List.getD_eq_getElem _ _ hn]
        rfl
    · rcases ih x hx with ⟨i, j, hij, hj, rfl⟩
      refine ⟨i + 1, j + 1, by omega, ?_, ?_⟩
      · simp only [List.length_cons]
        omega
      · rw [ptAt_cons_succ, ptAt_cons_succ]

theorem pairSqs_perm {l l' : List Pt} (h : l.Perm l') :
    (pairSqs l).Perm (pairSqs l') := by
  induction h with
  | nil => exact List.Perm.refl _
  | cons x h ih =>
    show (List.map (normSq x) _ ++ pairSqs _).Perm (List.map (normSq x) _ ++ pairSqs _)
    exact List.Perm.append (List.Perm.map _ h) ih
  | swap x y l =>
    show (List.map (normSq y) (x :: l) ++ pairSqs (x :: l)).Perm
        (List.map (normSq x) (y :: l) ++ pairSqs (y :: l))
    simp only [List.map_cons, pairSqs, List.cons_append]
    rw [normSq_comm y x]
    refine List.Perm.cons _ ?_
    rw [← List.append_assoc, ← List.append_assoc]
    exact List.Perm.append_right _ List.perm_append_comm
  | trans h1 h2 ih1 ih2 => exact ih1.trans ih2

/-! ## The main correctness facts -/

theorem closest_pair_eq (l : List Pt) (h : ¬ l.length < 2) :
    closest_pair l = some (stateAt (sortPts l) (sortPts l).length).best := by
  unfold closest_pair closestPairFull
  rw [if_neg h]

/-- `closest_pair` on at least two points returns a pair whose squared
distance belongs to, and is a lower bound of, the squared distances of all
unordered pairs of the input: it is their minimum. -/
theorem closest_pair_min (l : List Pt) (h : 2 ≤ l.length) :
    ∃ p1 p2, closest_pair l = some (p1, p2) ∧
      normSq p1 p2 ∈ pairSqs l ∧ ∀ d ∈ pairSqs l, normSq p1 p2 ≤ d := by
  have hnl : ¬ l.length < 2 := by omega
  have hperm : (sortPts l).Perm l := List.perm_insertionSort leXY l
  have hsorted : List.Sorted leXY (sortPts l) := List.sorted_insertionSort leXY l
  have hlen : (sortPts l).length = l.length := hperm.length_eq
  obtain ⟨-, -, -, -, he, hf, hg⟩ :=
    stateAt_inv (sortPts l) hsorted (sortPts l).length (by omega) (le_refl _)
  refine ⟨(stateAt (sortPts l) (sortPts l).length).best.1,
    (stateAt (sortPts l) (sortPts l).length).best.2, closest_pair_eq l hnl, ?_, ?_⟩
  · rcases hg with ⟨i, j, hij, hj, hval⟩
    rw [he.trans hval]
    exact (pairSqs_perm hperm).mem_iff.mp (mem_pairSqs_of_indices (sortPts l) i j hij hj)
  · intro d hd
    have hd' : d ∈ pairSqs (sortPts l) := (pairSqs_perm hperm).mem_iff.mpr hd
    rcases pairSqs_indices (sortPts l) d hd' with ⟨i, j, hij, hj, rfl⟩
    rw [he]
    exact hf i j hij hj

/-- The strip, at the moment the candidate scan for sweep index `idx`
begins, holds exactly the already-visited points within the open x-window
of half-width the current best distance around the sweep point (the window
test in its exact squared form). -/
theorem evict_char (pts : List Pt) (hs : List.Sorted leXY pts) (idx : ℕ)
    (hidx : idx < pts.length) (st : SState) (hinv : SweepInv pts idx st) (x : Pt) :
    x ∈ (evictLoop pts (ptAt pts idx) st.bestSq st.leftmost idx st.strip).2 ↔
      ∃ j, j < idx ∧ ptAt pts j = x ∧
        ((ptAt pts idx).re - x.re) ^ 2 < st.bestSq := by
  obtain ⟨ha, hb, hc, hd, he, hf, hg⟩ := hinv
  set p := ptAt pts idx with hp
  set s := st.bestSq with hsdef
  set ev := evictLoop pts p s st.leftmost idx st.strip with hev
  have hge : st.leftmost ≤ ev.1 := evictAux_fst_ge pts p s _ _ _
  have hle : ev.1 ≤ idx := by
    have h1 := evictAux_fst_le pts p s (idx - st.leftmost) st.leftmost st.strip
    rw [hev]
    unfold evictLoop
    omega
  have hbad : ∀ j, st.leftmost ≤ j → j < ev.1 → s ≤ ((ptAt pts j).re - p.re) ^ 2 :=
    fun j hlj hj => evictAux_bad pts p s _ _ _ j hlj hj
  have hgood : ev.1 < idx → ((ptAt pts ev.1).re - p.re) ^ 2 < s := by
    intro h
    have h1 := evictAux_good pts p s (idx - st.leftmost) st.leftmost st.strip
    rw [hev] at h ⊢
    unfold evictLoop at h ⊢
    exact h1 (by omega)
  have hmem' : ∀ y, y ∈ ev.2 ↔
      (y ∈ st.strip ∧ ∀ j, st.leftmost ≤ j → j < ev.1 → y ≠ ptAt pts j) :=
    evictAux_mem pts p s _ _ _ ha
  have hbadAll : ∀ j, j < ev.1 → s ≤ ((ptAt pts j).re - p.re) ^ 2 := by
    intro j hj
    by_cases hjl : j < st.leftmost
    · have h1 := hd j idx hjl (le_refl idx) hidx
      calc s ≤ ((ptAt pts idx).re - (ptAt pts j).re) ^ 2 := h1
        _ = ((ptAt pts j).re - p.re) ^ 2 := by rw [← hp]; ring
    · exact hbad j (not_lt.mp hjl) hj
  have hgoodAll : ∀ j, ev.1 ≤ j → j < idx → ((ptAt pts j).re - p.re) ^ 2 < s := by
    intro j hj1 hj2
    have h1 : ev.1 < idx := lt_of_le_of_lt hj1 hj2
    have hgd := hgood h1
    have hm1 : (ptAt pts ev.1).re ≤ (ptAt pts j).re :=
      sorted_re_mono hs hj1 (lt_trans hj2 hidx)
    have hm2 : (ptAt pts j).re ≤ p.re := by
      rw [hp]
      exact sorted_re_mono hs (le_of_lt hj2) hidx
    have hsq : ((ptAt pts j).re - p.re) ^ 2 ≤ ((ptAt pts ev.1).re - p.re) ^ 2 := by
      have e1 : ((ptAt pts j).re - p.re) ^ 2 = (p.re - (ptAt pts j).re) ^ 2 := by ring
      have e2 : ((ptAt pts ev.1).re - p.re) ^ 2 = (p.re - (ptAt pts ev.1).re) ^ 2 := by
        ring
      rw [e1, e2]
      exact pow_le_pow_left₀ (by linarith) (by linarith) 2
    linarith
  constructor
  · intro hx
    rcases (hmem' x).mp hx with ⟨hxs, hne⟩
    rcases (hb x).mp hxs with ⟨j, hj1, hj2, hj3⟩
    by_cases hjl : j < ev.1
    · exact absurd hj3.symm (hne j hj1 hjl)
    · refine ⟨j, hj2, hj3, ?_⟩
      have := hgoodAll j (not_lt.mp hjl) hj2
      rw [hj3] at this
      calc (p.re - x.re) ^ 2 = (x.re - p.re) ^ 2 := by ring
        _ < s := this
  · rintro ⟨j, hj2, rfl, hwin⟩
    have hwin' : ((ptAt pts j).re - p.re) ^ 2 < s := by
      calc ((ptAt pts j).re - p.re) ^ 2 = (p.re - (ptAt pts j).re) ^ 2 := by ring
        _ < s := hwin
    have hjge : ev.1 ≤ j := by
      by_contra hjl
      push_neg at hjl
      exact absurd hwin' (not_lt.mpr (hbadAll j hjl))
    refine (hmem' _).mpr ⟨(hb _).mpr ⟨j, le_trans hge hjge, hj2, rfl⟩, ?_⟩
    intro j' hj1' hj2' heq
    have hb1 := hbadAll j' hj2'
    rw [← heq] at hb1
    linarith

/-! ## Step-count bounds -/

theorem scanStripAt_length_le (l : List Pt) (idx : ℕ)
    (h2 : 2 ≤ idx) (hidx : idx < (sortPts l).length) :
    (scanStripAt (sortPts l) idx).length ≤ idx := by
  have hsorted : List.Sorted leXY (sortPts l) := List.sorted_insertionSort leXY l
  have hinv := stateAt_inv (sortPts l) hsorted idx h2 (le_of_lt hidx)
  have hpw : (scanStripAt (sortPts l) idx).Pairwise ltYX := by
    unfold scanStripAt evictLoop
    exact evictAux_pairwise _ _ _ _ _ _ hinv.1
  have hnd : (scanStripAt (sortPts l) idx).Nodup := nodup_of_pairwise_ltYX hpw
  have hchar := fun x => evict_char (sortPts l) hsorted idx hidx _ hinv x
  have hsub : (scanStripAt (sortPts l) idx).toFinset ⊆
      (Finset.range idx).image (ptAt (sortPts l)) := by
    intro x hx
    rw [List.mem_toFinset] at hx
    rcases (hchar x).mp hx with ⟨j, hj, hjx, -⟩
    exact Finset.mem_image.mpr ⟨j, Finset.mem_range.mpr hj, hjx⟩
  calc (scanStripAt (sortPts l) idx).length
      = (scanStripAt (sortPts l) idx).toFinset.card :=
        (List.toFinset_card_of_nodup hnd).symm
    _ ≤ ((Finset.range idx).image (ptAt (sortPts l))).card := Finset.card_le_card hsub
    _ ≤ (Finset.range idx).card := Finset.card_image_le
    _ = idx := Finset.card_range idx

theorem scanStepsAt_le (l : List Pt) (idx : ℕ)
    (h2 : 2 ≤ idx) (hidx : idx < (sortPts l).length) :
    scanStepsAt (sortPts l) idx ≤ idx := by
  unfold scanStepsAt
  calc scanSteps (ptAt (sortPts l) idx) (scanCandAt (sortPts l) idx)
        (stateAt (sortPts l) idx).bestSq
      ≤ (scanCandAt (sortPts l) idx).length := scanSteps_le _ _ _
    _ ≤ (scanStripAt (sortPts l) idx).length := by
        unfold scanCandAt
        exact (List.dropWhile_sublist _).length_le
    _ ≤ idx := scanStripAt_length_le l idx h2 hidx

theorem evictStepsAt_le (l : List Pt) (idx : ℕ)
    (h2 : 2 ≤ idx) (hidx : idx < (sortPts l).length) :
    evictStepsAt (sortPts l) idx ≤ idx := by
  have hsorted : List.Sorted leXY (sortPts l) := List.sorted_insertionSort leXY l
  have hinv := stateAt_inv (sortPts l) hsorted idx h2 (le_of_lt hidx)
  have hc : (stateAt (sortPts l) idx).leftmost ≤ idx := hinv.2.2.1
  unfold evictStepsAt evictLoop
  have h1 := evictAux_fst_le (sortPts l) (ptAt (sortPts l) idx)
    (stateAt (sortPts l) idx).bestSq (idx - (stateAt (sortPts l) idx).leftmost)
    (stateAt (sortPts l) idx).leftmost (stateAt (sortPts l) idx).strip
  omega

/-! ## The claims -/

/-- C1: for every input sequence of at least two points, `closest_pair`
returns `some (p1, p2)` where the squared distance of `p1` and `p2` equals
the minimum squared distance over all unordered pairs of input points: it
is one of the pairwise squared distances and a lower bound of all of them. -/
theorem c1_min_pair (l : List Pt) (h : 2 ≤ l.length) :
    ∃ p1 p2, closest_pair l = some (p1, p2) ∧
      normSq p1 p2 ∈ pairSqs l ∧ ∀ d ∈ pairSqs l, normSq p1 p2 ≤ d :=
  closest_pair_min l h

/-- C2: `closest_pair` answers `none` exactly on inputs of fewer than two
points; this is the early return, not an error path. -/
theorem c2_none_iff (l : List Pt) : closest_pair l = none ↔ l.length < 2 := by
  unfold closest_pair closestPairFull
  split_ifs with h1
  · simpa using h1
  · simpa using h1

/-- C3: on exactly two points the returned pair consists of exactly those
two points, whichever order they are supplied in (the two-element list
`[a, b]` with `a`, `b` arbitrary covers both orders). -/
theorem c3_two_points (a b : Pt) :
    ∃ p q, closest_pair [a, b] = some (p, q) ∧
      ((p = a ∧ q = b) ∨ (p = b ∧ q = a)) := by
  have hr := closest_pair_eq [a, b] (by simp)
  by_cases hab : leXY a b
  · have hsort : sortPts [a, b] = [a, b] := by
      unfold sortPts
      simp [List.insertionSort, List.orderedInsert, hab]
    rw [hsort] at hr
    exact ⟨a, b, by rw [hr]; rfl, Or.inl ⟨rfl, rfl⟩⟩
  · have hsort : sortPts [a, b] = [b, a] := by
      unfold sortPts
      simp [List.insertionSort, List.orderedInsert, hab]
    rw [hsort] at hr
    exact ⟨b, a, by rw [hr]; rfl, Or.inr ⟨rfl, rfl⟩⟩

/-- C4: an input containing two coincident points (equal points at two
distinct positions) makes `closest_pair` return a pair at distance 0. -/
theorem c4_duplicates (l : List Pt) (i j : ℕ) (hij : i < j) (hj : j < l.length)
    (heq : ptAt l i = ptAt l j) :
    ∃ p1 p2, closest_pair l = some (p1, p2) ∧ normSq p1 p2 = 0 := by
  have h2 : 2 ≤ l.length := by omega
  obtain ⟨p1, p2, hr, hmem, hlow⟩ := closest_pair_min l h2
  refine ⟨p1, p2, hr, ?_⟩
  have h0 : normSq (ptAt l i) (ptAt l j) = 0 := by
    rw [heq]
    exact normSq_self _
  have hle := hlow _ (mem_pairSqs_of_indices l i j hij hj)
  rw [h0] at hle
  have hge := pairSqs_nonneg l _ hmem
  linarith

/-- C5: at the moment the candidate scan for sweep index `idx` begins, the
strip holds exactly the already-visited points of the sorted sequence whose
x-coordinate differs from the current sweep point's x-coordinate by less
than the current best known distance (the comparison in its exact squared
form). -/
theorem c5_strip_invariant (l : List Pt) (idx : ℕ) (h2 : 2 ≤ idx)
    (hidx : idx < (sortPts l).length) (v : Pt) :
    v ∈ scanStripAt (sortPts l) idx ↔
      ∃ j, j < idx ∧ ptAt (sortPts l) j = v ∧
        ((ptAt (sortPts l) idx).re - v.re) ^ 2 < (stateAt (sortPts l) idx).bestSq := by
  have hsorted : List.Sorted leXY (sortPts l) := List.sorted_insertionSort leXY l
  exact evict_char (sortPts l) hsorted idx hidx _
    (stateAt_inv (sortPts l) hsorted idx h2 (le_of_lt hidx)) v

/-- C6: permuting the input sequence does not change the minimum distance
value: the pairs returned on a list and on any permutation of it have equal
squared distance. -/
theorem c6_perm_same_min (l l' : List Pt) (hperm : l.Perm l') (h : 2 ≤ l.length) :
    ∃ p1 p2 q1 q2, closest_pair l = some (p1, p2) ∧
      closest_pair l' = some (q1, q2) ∧ normSq p1 p2 = normSq q1 q2 := by
  have h' : 2 ≤ l'.length := hperm.length_eq ▸ h
  obtain ⟨p1, p2, hr, hmem, hlow⟩ := closest_pair_min l h
  obtain ⟨q1, q2, hr', hmem', hlow'⟩ := closest_pair_min l' h'
  refine ⟨p1, p2, q1, q2, hr, hr', ?_⟩
  have h1 := hlow _ ((pairSqs_perm hperm).mem_iff.mpr hmem')
  have h2 := hlow' _ ((pairSqs_perm hperm).mem_iff.mp hmem)
  linarith

/-- C8: the work is bounded by the input size: at each sweep index the
eviction loop advances `leftmost_idx` at most `idx ≤ n` times and the
candidate scan performs at most `idx ≤ n` iterations, and the outer sweep
runs exactly `n - 2` iterations, `n` the input length (the loops are
structurally recursive, hence terminate). -/
theorem c8_bounded_steps (l : List Pt) :
    (∀ idx, 2 ≤ idx → idx < (sortPts l).length →
      evictStepsAt (sortPts l) idx ≤ l.length ∧
        scanStepsAt (sortPts l) idx ≤ l.length) ∧
    (List.range' 2 ((sortPts l).length - 2)).length = l.length - 2 := by
  have hlen : (sortPts l).length = l.length := (List.perm_insertionSort leXY l).length_eq
  constructor
  · intro idx h2 hidx
    constructor
    · exact le_trans (evictStepsAt_le l idx h2 hidx) (by omega)
    · exact le_trans (scanStepsAt_le l idx h2 hidx) (by omega)
  · rw [List.length_range', hlen]

theorem tupCmp_fcmp_isSome (x y u v : ℚ) :
    (tupCmp (fcmp x y) (fcmp u v)).isSome = true := by
  rcases h1 : fcmp x y with _ | c
  · exact absurd h1 (fcmp_ne_none _ _)
  cases c
  · rw [tupCmp_fst_lt]; rfl
  · rw [tupCmp_fst_eq]; exact fcmp_isSome _ _
  · rw [tupCmp_fst_gt]; rfl

/-- C9: under the contract that all coordinates are finite reals (which the
rational model expresses), both partial comparisons the program unwraps —
the `(x, y)` sort comparator and the `(y, x)` order of `YSortedPoint` —
always produce an ordering, so the panicking `unwrap` branches are never
reached. -/
theorem c9_no_panic (a b : Pt) :
    (pcmpXY a b).isSome = true ∧ (pcmpYX a b).isSome = true :=
  ⟨tupCmp_fcmp_isSome _ _ _ _, tupCmp_fcmp_isSome _ _ _ _⟩

/-- C10: after `closest_pair` returns, the slice holds the same multiset of
points as on entry, arranged ascending in the `(x, y)` lexicographic order;
the in-place sort is the only mutation (for fewer than two points the slice
is untouched, and trivially sorted). -/
theorem c10_slice_sorted_perm (l : List Pt) :
    (closestPairFull l).2.Perm l ∧ List.Sorted leXY (closestPairFull l).2 := by
  by_cases h1 : l.length < 2
  · have he : (closestPairFull l).2 = l := by
      unfold closestPairFull
      rw [if_pos h1]
    rw [he]
    refine ⟨List.Perm.refl l, ?_⟩
    rcases l with _ | ⟨a, _ | ⟨b, rest⟩⟩
    · exact List.sorted_nil
    · exact List.sorted_singleton a
    · exact absurd h1 (by simp)
  · have he : (closestPairFull l).2 = sortPts l := by
      unfold closestPairFull
      rw [if_neg h1]
    rw [he]
    exact ⟨List.perm_insertionSort leXY l, List.sorted_insertionSort leXY l⟩

/-! ## Concrete evaluations

The rational arithmetic of the standard library is marked irreducible for
the elaborator; the kernel ignores that marking, and the following local
override only lets the `decide` front end evaluate what the kernel then
rechecks. -/

set_option allowUnsafeReducibility true
attribute [local reducible] Rat.add Rat.mul Rat.sub Rat.inv Rat.div Rat.neg

set_option maxRecDepth 100000

/-- C7: on the 10-point regression fixture the program returns the pair
`(0.891663, 0.888594)`, `(0.925092, 0.818220)` (exactly, in the rational
model), and its squared distance is within `1e-6` of `0.0779102 ^ 2`. -/
theorem c7_fixture :
    closest_pair
        [⟨654682/1000000, 925557/1000000⟩, ⟨409382/1000000, 619391/1000000⟩,
         ⟨891663/1000000, 888594/1000000⟩, ⟨716629/1000000, 996200/1000000⟩,
         ⟨477721/1000000, 946355/1000000⟩, ⟨925092/1000000, 818220/1000000⟩,
         ⟨624291/1000000, 142924/1000000⟩, ⟨211332/1000000, 221507/1000000⟩,
         ⟨293786/1000000, 691701/1000000⟩, ⟨839186/1000000, 728260/1000000⟩] =
      some (⟨891663/1000000, 888594/1000000⟩, ⟨925092/1000000, 818220/1000000⟩) ∧
    |normSq ⟨891663/1000000, 888594/1000000⟩ ⟨925092/1000000, 818220/1000000⟩ -
        (779102/10000000) ^ 2| < 1/1000000 := by
  constructor
  · decide
  · decide

/-- Witness: C1 at a concrete three-point input. -/
theorem c1_min_pair_witness :
    2 ≤ ([⟨0, 0⟩, ⟨3, 0⟩, ⟨1, 1⟩] : List Pt).length ∧
      ∃ p1 p2, closest_pair [⟨0, 0⟩, ⟨3, 0⟩, ⟨1, 1⟩] = some (p1, p2) ∧
        normSq p1 p2 ∈ pairSqs [⟨0, 0⟩, ⟨3, 0⟩, ⟨1, 1⟩] ∧
        ∀ d ∈ pairSqs [⟨0, 0⟩, ⟨3, 0⟩, ⟨1, 1⟩], normSq p1 p2 ≤ d :=
  ⟨by decide, c1_min_pair _ (by decide)⟩

/-- Witness: C4 on an input whose first and third points coincide. -/
theorem c4_duplicates_witness :
    (0 : ℕ) < 2 ∧ 2 < ([⟨0, 0⟩, ⟨2, 3⟩, ⟨0, 0⟩] : List Pt).length ∧
      ptAt [⟨0, 0⟩, ⟨2, 3⟩, ⟨0, 0⟩] 0 = ptAt [⟨0, 0⟩, ⟨2, 3⟩, ⟨0, 0⟩] 2 ∧
      ∃ p1 p2, closest_pair [⟨0, 0⟩, ⟨2, 3⟩, ⟨0, 0⟩] = some (p1, p2) ∧
        normSq p1 p2 = 0 :=
  ⟨by decide, by decide, by decide,
    c4_duplicates _ 0 2 (by decide) (by decide) (by decide)⟩

/-- Witness: C5 at a concrete four-point input, sweep index 2, asking about
the point `(1, 0)`. -/
theorem c5_strip_invariant_witness :
    (2 ≤ 2 ∧ 2 < (sortPts [⟨0, 0⟩, ⟨1, 0⟩, ⟨1, 1⟩, ⟨5, 5⟩]).length) ∧
      ((⟨1, 0⟩ : Pt) ∈ scanStripAt (sortPts [⟨0, 0⟩, ⟨1, 0⟩, ⟨1, 1⟩, ⟨5, 5⟩]) 2 ↔
        ∃ j, j < 2 ∧ ptAt (sortPts [⟨0, 0⟩, ⟨1, 0⟩, ⟨1, 1⟩, ⟨5, 5⟩]) j = ⟨1, 0⟩ ∧
          ((ptAt (sortPts [⟨0, 0⟩, ⟨1, 0⟩, ⟨1, 1⟩, ⟨5, 5⟩]) 2).re -
              (Pt.mk 1 0).re) ^ 2 <
            (stateAt (sortPts [⟨0, 0⟩, ⟨1, 0⟩, ⟨1, 1⟩, ⟨5, 5⟩]) 2).bestSq) :=
  ⟨⟨by decide, by decide⟩,
    c5_strip_invariant [⟨0, 0⟩, ⟨1, 0⟩, ⟨1, 1⟩, ⟨5, 5⟩] 2 (by decide) (by decide) ⟨1, 0⟩⟩

/-- Witness: C6 on a concrete list and a rotation of it. -/
theorem c6_perm_same_min_witness :
    ([⟨0, 0⟩, ⟨1, 1⟩, ⟨5, 0⟩] : List Pt).Perm [⟨5, 0⟩, ⟨0, 0⟩, ⟨1, 1⟩] ∧
      2 ≤ ([⟨0, 0⟩, ⟨1, 1⟩, ⟨5, 0⟩] : List Pt).length ∧
      ∃ p1 p2 q1 q2, closest_pair [⟨0, 0⟩, ⟨1, 1⟩, ⟨5, 0⟩] = some (p1, p2) ∧
        closest_pair [⟨5, 0⟩, ⟨0, 0⟩, ⟨1, 1⟩] = some (q1, q2) ∧
        normSq p1 p2 = normSq q1 q2 :=
  ⟨by decide, by decide, c6_perm_same_min _ _ (by decide) (by decide)⟩
